import Mathlib

/-!
Verification of the snarkyjs-merkle-tree repository.

The repository implements a Merkle hash tree over snarkyjs `Field` values:
`makeTree`/`calculateNextLevel` build a level matrix from a list of leaf
hashes (odd trailing nodes are promoted unchanged), `getProof` extracts a
sibling path for a leaf index, the static `validateProof` replays a path
against a leaf hash and a claimed root, `getIndex` linearly scans the leaves,
and (in the power-of-two variant of `MerkleTree.ts`) `update` replaces a
single leaf and recomputes its ancestor chain in place.

Shallow embedding conventions:
- A snarkyjs `Field` is modelled as a `Nat` (its canonical representative).
  The tree logic only ever compares fields for equality and feeds them to
  `Poseidon.hash`, so no field arithmetic needs to be modelled.
- `Poseidon.hash [a, b]` is an abstract oracle `poseidon2 : Nat → Nat → Nat`
  passed to every definition; `Poseidon.hash [a]` is `poseidon1 : Nat → Nat`.
- JavaScript arrays that can contain holes / `undefined` reads are modelled
  as `List (Option Nat)` with `jsGet` / `jsSet`; `Poseidon.hash` applied to
  an `undefined` argument throws, which is modelled as an error result.
- `getProof` on an empty tree evaluates `this.tree.levels[-1].length`, a
  JavaScript `TypeError`; this is the `typeError` result constructor.
-/

namespace MerkleTree

/-- A single element of a `MerklePath`, from the source `MerklePath` type:
`direction` is `Field(0)` for a sibling on the right, `Field(1)` for a
sibling on the left; `hash` is the sibling hash. -/
structure PathElem where
  direction : Nat
  hash : Nat
deriving DecidableEq

/-- A `MerklePath` is a list of path elements, leaf level first. -/
abbrev MerklePath := List PathElem

/-- Source `calculateNextLevel`: scan the current level two nodes at a time;
a complete pair is hashed, an odd trailing node is promoted unchanged. -/
def calculateNextLevel (poseidon2 : Nat → Nat → Nat) : List Nat → List Nat
  | [] => []
  | [a] => [a]
  | a :: b :: rest => poseidon2 a b :: calculateNextLevel poseidon2 rest

/-- Fuel-driven helper for the `makeTree` loop (`while levels[0].length > 1`),
structurally recursive so that concrete trees evaluate by kernel reduction.
The fuel is irrelevant as soon as it is at least `l.length - 1`
(`levelsUpAux_fuel`). -/
def levelsUpAux (poseidon2 : Nat → Nat → Nat) : Nat → List Nat → List (List Nat)
  | 0, l => [l]
  | fuel + 1, l =>
    if l.length ≤ 1 then [l]
    else l :: levelsUpAux poseidon2 fuel (calculateNextLevel poseidon2 l)

/-- The levels of the tree listed from the leaf level up to the root level:
the iteration order of the `makeTree` loop. -/
def levelsUp (poseidon2 : Nat → Nat → Nat) (l : List Nat) : List (List Nat) :=
  levelsUpAux poseidon2 l.length l

/-- Source `makeTree` on a freshly constructed tree: for a nonempty leaf list
the levels are rebuilt by repeated `unshift`, so the result is `levelsUp`
reversed (root level first, leaf level last); with zero leaves the loop body
is skipped and the levels stay empty. -/
def makeTree (poseidon2 : Nat → Nat → Nat) (leaves : List Nat) : List (List Nat) :=
  if leaves.length = 0 then [] else (levelsUp poseidon2 leaves).reverse

/-- Source `getMerkleRoot`: `undefined` when there are no levels, otherwise
`levels[0][0]`. -/
def getMerkleRoot (levels : List (List Nat)) : Option Nat :=
  levels.head?.bind fun row => row.get? 0

/-- The root value of the tree built from leaf list `l`: the single entry of
the topmost level produced by the `makeTree` loop. -/
def rootVal (poseidon2 : Nat → Nat → Nat) (l : List Nat) : Nat :=
  (((levelsUp poseidon2 l).getLast?).bind fun row => row.get? 0).getD 0

/-- The loop body of source `getProof`, walking the level rows from the leaf
row up to (but excluding) the root row, with the current node index: an odd
unpaired end node is skipped (it was promoted), otherwise the sibling and its
direction are recorded.  The rows of a built tree are nonempty, so the
`lvl.length - 1` truncated subtraction agrees with the JavaScript arithmetic. -/
def proofGo : List (List Nat) → Nat → MerklePath
  | [], _ => []
  | lvl :: rest, index =>
    if index = lvl.length - 1 ∧ lvl.length % 2 = 1 then
      proofGo rest (index / 2)
    else if index % 2 = 0 then
      -- even node: the sibling is on the right, direction Field(0)
      { direction := 0, hash := (lvl.get? (index + 1)).getD 0 } :: proofGo rest (index / 2)
    else
      -- odd node: the sibling is on the left, direction Field(1)
      { direction := 1, hash := (lvl.get? (index - 1)).getD 0 } :: proofGo rest (index / 2)

/-- Result of a `getProof` call: either a returned path, or the JavaScript
`TypeError` thrown by `this.tree.levels[-1].length` on an empty tree. -/
inductive GetProofResult where
  | ok (path : MerklePath)
  | typeError
deriving DecidableEq

/-- Source `getProof`.  The guard `index < 0 || index > levels[last].length - 1`
short-circuits: a negative index returns `[]` before the leaf row is touched;
otherwise on an empty tree the leaf-row access throws. -/
def getProof (levels : List (List Nat)) (index : Int) : GetProofResult :=
  if index < 0 then .ok []
  else
    match levels.getLast? with
    | none => .typeError
    | some leafRow =>
      if (leafRow.length : Int) - 1 < index then .ok []
      else .ok (proofGo ((levels.drop 1).reverse) index.toNat)

/-- One step of the source `validateProof` loop: both `Circuit.if` selections
are applied in sequence, so a direction equal to `Field(1)` hashes the sibling
on the left, a direction equal to `Field(0)` hashes it on the right, and any
other direction leaves the accumulator unchanged. -/
def replayStep (poseidon2 : Nat → Nat → Nat) (acc : Nat) (e : PathElem) : Nat :=
  let acc1 := if e.direction = 1 then poseidon2 e.hash acc else acc
  if e.direction = 0 then poseidon2 acc1 e.hash else acc1

/-- The accumulator of the `validateProof` loop over a whole path. -/
def replay (poseidon2 : Nat → Nat → Nat) (path : MerklePath) (leafHash : Nat) : Nat :=
  path.foldl (replayStep poseidon2) leafHash

/-- Source static `validateProof`: replay the path from the leaf hash and
compare with the claimed root. -/
def validateProof (poseidon2 : Nat → Nat → Nat) (path : MerklePath)
    (leafHash merkleRoot : Nat) : Bool :=
  replay poseidon2 path leafHash == merkleRoot

/-- The `forEach` accumulator of source `getIndex`: the callback's `return`
only ends the current iteration, so a later match overwrites an earlier one. -/
def getIndexGo (element : Nat) : List Nat → Nat → Option Nat → Option Nat
  | [], _, result => result
  | el :: rest, i, result =>
    getIndexGo element rest (i + 1) (if el = element then some i else result)

/-- Source `getIndex`: scan all stored leaves, remembering the index of the
most recent leaf equal to `element`. -/
def getIndex (leaves : List Nat) (element : Nat) : Option Nat :=
  getIndexGo element leaves 0 none

/-- The number of promoted (skipped) levels the `getProof` walk encounters
for a given start index, over the same rows `proofGo` walks. -/
def promoCount : List (List Nat) → Nat → Nat
  | [], _ => 0
  | lvl :: rest, index =>
    if index = lvl.length - 1 ∧ lvl.length % 2 = 1 then promoCount rest (index / 2) + 1
    else promoCount rest (index / 2)

/-! ## The incremental updater of the power-of-two variant

The `update` method mutates JavaScript arrays in place, can write past the
end of an array (extending it with holes) and can read `undefined` from
out-of-range positions.  Its state is therefore modelled over
`List (Option Nat)`: `some v` is a stored field element, `none` is a hole /
`undefined`.  `Poseidon.hash` applied to an `undefined` child throws; a call
that throws is modelled by the Boolean `false` in the result together with
the state the tree was left in at the moment of the throw (the final
un-reverse of `levels` never runs, so on a throw the levels stay in reversed,
leaf-level-first order). -/

/-- Read `arr[i]` from a JavaScript array: out-of-range reads and holes give
`undefined`. -/
def jsGet (l : List (Option Nat)) (i : Nat) : Option Nat :=
  (l.get? i).join

/-- Write `arr[i] = v` to a JavaScript array: an out-of-range write extends
the array, filling the gap with holes. -/
def jsSet (l : List (Option Nat)) (i : Nat) (v : Nat) : List (Option Nat) :=
  if i < l.length then l.set i (some v)
  else l ++ List.replicate (i - l.length) none ++ [some v]

/-- The source `BinaryTree` record: the stored leaf hashes and the level
matrix (root level first in a consistent tree). -/
structure BinaryTree where
  leaves : List (Option Nat)
  levels : List (List (Option Nat))
deriving DecidableEq

/-- The tree the constructor builds from already-stored leaf hashes `l`
(the `hashLeaves = false` path; with hashing, `l` is the image of the raw
items under `poseidon1`). -/
def buildTree (poseidon2 : Nat → Nat → Nat) (l : List Nat) : BinaryTree :=
  { leaves := l.map some,
    levels := (makeTree poseidon2 l).map (List.map some) }

/-- The `childNodes` selection of source `update`: the ordered pair of
children around position `cur` of a level (`cur` even: itself and its right
neighbour; `cur` odd: its left neighbour and itself). -/
def childPairAt (lvl : List (Option Nat)) (cur : Nat) : Option Nat × Option Nat :=
  if cur % 2 = 0 then (jsGet lvl cur, jsGet lvl (cur + 1))
  else (jsGet lvl (cur - 1), jsGet lvl cur)

/-- The `forEach` of source `update` over the reversed (leaf-level-first)
levels, after the height-0 leaf level has been skipped.  `cur` is
`currentLevelIndex` (already halved once by the skipped leaf iteration) and
`children` is the `childNodes` pair.  `Poseidon.hash` on an `undefined`
child throws: the remaining rows are returned untouched together with
`false`. -/
def updGo (poseidon2 : Nat → Nat → Nat) :
    List (List (Option Nat)) → Nat → Option Nat × Option Nat →
      List (List (Option Nat)) × Bool
  | [], _, _ => ([], true)
  | lvl :: rest, cur, (some a, some b) =>
    match updGo poseidon2 rest (cur / 2)
        (childPairAt (jsSet lvl cur (poseidon2 a b)) cur) with
    | (rest1, ok) => (jsSet lvl cur (poseidon2 a b) :: rest1, ok)
  | lvl :: rest, _, _ => (lvl :: rest, false)

/-- Source `update` of the power-of-two variant (`MerkleTree.update`):
replace the leaf (in `leaves` and in the leaf row, which alias each other),
compute the initial `childNodes` pair around the leaf, then walk the reversed
levels recomputing one ancestor per level.  There is no index bounds check.
On an empty tree the leaf-row access `levels[-1][index]` throws after
`leaves[index]` was already assigned.  The Boolean records whether the call
ran to completion (`true`) or threw (`false`); on a throw the levels are left
reversed, exactly as the exception leaves the JavaScript object.  A negative
JavaScript index is not modelled: the index is a `Nat`. -/
def update (poseidon1 : Nat → Nat) (poseidon2 : Nat → Nat → Nat)
    (t : BinaryTree) (newLeaf : Nat) (index : Nat) (hash : Bool) :
    BinaryTree × Bool :=
  match t.levels.getLast? with
  | none =>
    ({ leaves := jsSet t.leaves index (if hash then poseidon1 newLeaf else newLeaf),
       levels := t.levels }, false)
  | some lastRow =>
    match updGo poseidon2 (t.levels.dropLast.reverse) (index / 2)
        (childPairAt (jsSet lastRow index (if hash then poseidon1 newLeaf else newLeaf))
          index) with
    | (rest1, ok) =>
      ({ leaves := jsSet t.leaves index (if hash then poseidon1 newLeaf else newLeaf),
         levels :=
           if ok then
             (jsSet lastRow index (if hash then poseidon1 newLeaf else newLeaf)
               :: rest1).reverse
           else
             jsSet lastRow index (if hash then poseidon1 newLeaf else newLeaf)
               :: rest1 },
       ok)

/-- The rows strictly above a level in `makeTree` loop order: what the
`update` walk processes after skipping the leaf row. -/
def upChain (poseidon2 : Nat → Nat → Nat) (l : List Nat) : List (List Nat) :=
  (levelsUp poseidon2 l).tail

/-- A concrete oracle (shifted Cantor pairing) standing in for
`Poseidon.hash [a, b]` in closed witness and counterexample statements. -/
def pairHash (a b : Nat) : Nat :=
  (a + b) * (a + b + 1) / 2 + b

/-- A concrete stand-in for `Poseidon.hash [a]` in closed statements. -/
def oneHash (a : Nat) : Nat :=
  a + 1

/-! ## Basic structural lemmas about the builder -/

theorem calculateNextLevel_length (p2 : Nat → Nat → Nat) :
    ∀ l : List Nat, (calculateNextLevel p2 l).length = (l.length + 1) / 2
  | [] => by simp [calculateNextLevel]
  | [a] => by simp [calculateNextLevel]
  | a :: b :: rest => by
    simp [calculateNextLevel, calculateNextLevel_length p2 rest]
    omega

theorem calculateNextLevel_get (p2 : Nat → Nat → Nat) :
    ∀ (l : List Nat) (j : Nat),
      (calculateNextLevel p2 l).get? j =
        match l.get? (2 * j), l.get? (2 * j + 1) with
        | some a, some b => some (p2 a b)
        | some a, none => some a
        | none, _ => none
  | [], j => by cases j <;> simp [calculateNextLevel]
  | [a], j => by
    cases j with
    | zero => simp [calculateNextLevel]
    | succ j => simp [calculateNextLevel, Nat.mul_succ]
  | a :: b :: rest, j => by
    cases j with
    | zero => simp [calculateNextLevel]
    | succ j =>
      have h1 : 2 * (j + 1) = 2 * j + 1 + 1 := by omega
      rw [h1]
      simp only [calculateNextLevel, List.get?_cons_succ]
      exact calculateNextLevel_get p2 rest j

theorem calculateNextLevel_ne_nil (p2 : Nat → Nat → Nat) (l : List Nat) (h : l ≠ []) :
    calculateNextLevel p2 l ≠ [] := by
  have hlen := calculateNextLevel_length p2 l
  intro hc
  rw [hc] at hlen
  simp at hlen
  have hpos : 0 < l.length := List.length_pos.mpr h
  omega

theorem levelsUpAux_fuel (p2 : Nat → Nat → Nat) :
    ∀ (f g : Nat) (l : List Nat), l.length ≤ f + 1 → l.length ≤ g + 1 →
      levelsUpAux p2 f l = levelsUpAux p2 g l := by
  intro f
  induction f with
  | zero =>
    intro g l hf hg
    cases g with
    | zero => rfl
    | succ g => simp [levelsUpAux, Nat.le_of_lt_succ, hf]
  | succ f ih =>
    intro g l hf hg
    by_cases hl : l.length ≤ 1
    · cases g with
      | zero => simp [levelsUpAux, hl]
      | succ g => simp [levelsUpAux, hl]
    · cases g with
      | zero => omega
      | succ g =>
        simp only [levelsUpAux, if_neg hl]
        have hlen := calculateNextLevel_length p2 l
        exact congrArg _ (ih g (calculateNextLevel p2 l) (by omega) (by omega))

/-- Unfolding equation for `levelsUp`: one iteration of the `makeTree` loop. -/
theorem levelsUp_eq (p2 : Nat → Nat → Nat) (l : List Nat) :
    levelsUp p2 l =
      if l.length ≤ 1 then [l] else l :: levelsUp p2 (calculateNextLevel p2 l) := by
  by_cases hl : l.length ≤ 1
  · rw [if_pos hl]
    unfold levelsUp
    cases l with
    | nil => rfl
    | cons a t =>
      have ht : t = [] := by
        cases t with
        | nil => rfl
        | cons b t2 => simp at hl
      subst ht
      simp [levelsUpAux]
  · rw [if_neg hl]
    unfold levelsUp
    have h2 : 2 ≤ l.length := by omega
    obtain ⟨n, hn⟩ : ∃ n, l.length = n + 1 := ⟨l.length - 1, by omega⟩
    rw [hn]
    simp only [levelsUpAux, if_neg hl]
    have hlen := calculateNextLevel_length p2 l
    exact congrArg _ (levelsUpAux_fuel p2 n (calculateNextLevel p2 l).length _ (by omega) (by omega))

theorem levelsUp_ne_nil (p2 : Nat → Nat → Nat) (l : List Nat) : levelsUp p2 l ≠ [] := by
  rw [levelsUp_eq]
  split <;> simp

theorem levelsUp_head (p2 : Nat → Nat → Nat) (l : List Nat) :
    (levelsUp p2 l).head? = some l := by
  rw [levelsUp_eq]
  split <;> simp

end MerkleTree

namespace MerkleTree

theorem rootVal_small (p2 : Nat → Nat → Nat) (l : List Nat) (hl : l.length ≤ 1) :
    rootVal p2 l = l.getD 0 0 := by
  unfold rootVal
  rw [levelsUp_eq, if_pos hl]
  cases l with
  | nil => rfl
  | cons a t =>
    have ht : t = [] := by
      cases t with
      | nil => rfl
      | cons b t2 => simp at hl
    subst ht
    rfl

theorem rootVal_step (p2 : Nat → Nat → Nat) (l : List Nat) (h2 : 2 ≤ l.length) :
    rootVal p2 l = rootVal p2 (calculateNextLevel p2 l) := by
  unfold rootVal
  rw [levelsUp_eq, if_neg (by omega)]
  have hne := levelsUp_ne_nil p2 (calculateNextLevel p2 l)
  obtain ⟨b, t, hbt⟩ : ∃ b t, levelsUp p2 (calculateNextLevel p2 l) = b :: t :=
    List.exists_cons_of_ne_nil hne
  rw [hbt, List.getLast?_cons_cons]

theorem levelsUp_getLast (p2 : Nat → Nat → Nat) (l : List Nat) (hl : l ≠ []) :
    (levelsUp p2 l).getLast? = some [rootVal p2 l] := by
  by_cases h1 : l.length ≤ 1
  · rw [levelsUp_eq, if_pos h1, rootVal_small p2 l h1]
    cases l with
    | nil => exact absurd rfl hl
    | cons a t =>
      have ht : t = [] := by
        cases t with
        | nil => rfl
        | cons b t2 => simp at h1
      subst ht
      rfl
  · have h2 : 2 ≤ l.length := by omega
    rw [levelsUp_eq, if_neg h1, rootVal_step p2 l h2]
    have hnl : calculateNextLevel p2 l ≠ [] := calculateNextLevel_ne_nil p2 l hl
    have ih := levelsUp_getLast p2 (calculateNextLevel p2 l) hnl
    obtain ⟨b, t, hbt⟩ : ∃ b t, levelsUp p2 (calculateNextLevel p2 l) = b :: t :=
      List.exists_cons_of_ne_nil (levelsUp_ne_nil p2 _)
    rw [hbt, List.getLast?_cons_cons, ← hbt, ih]
termination_by l.length
decreasing_by
  have := calculateNextLevel_length p2 l
  omega

theorem reverse_tail_eq_dropLast_reverse (l : List (List Nat)) :
    l.reverse.tail = l.dropLast.reverse := by
  induction l using List.reverseRecOn with
  | nil => rfl
  | append_singleton ys a ih => simp

theorem makeTree_eq (p2 : Nat → Nat → Nat) (l : List Nat) (hl : l ≠ []) :
    makeTree p2 l = (levelsUp p2 l).reverse := by
  unfold makeTree
  rw [if_neg (by simpa using List.length_pos.mpr hl |>.ne')]

theorem makeTree_getLast (p2 : Nat → Nat → Nat) (l : List Nat) (hl : l ≠ []) :
    (makeTree p2 l).getLast? = some l := by
  rw [makeTree_eq p2 l hl, List.getLast?_reverse, levelsUp_head]

theorem makeTree_drop_reverse (p2 : Nat → Nat → Nat) (l : List Nat) (hl : l ≠ []) :
    ((makeTree p2 l).drop 1).reverse = (levelsUp p2 l).dropLast := by
  rw [makeTree_eq p2 l hl, List.drop_one, reverse_tail_eq_dropLast_reverse,
    List.reverse_reverse]

theorem getMerkleRoot_makeTree (p2 : Nat → Nat → Nat) (l : List Nat) (hl : l ≠ []) :
    getMerkleRoot (makeTree p2 l) = some (rootVal p2 l) := by
  unfold getMerkleRoot
  rw [makeTree_eq p2 l hl, List.head?_reverse, levelsUp_getLast p2 l hl]
  rfl

end MerkleTree

namespace MerkleTree

/-- Central generator/verifier invariant: replaying the path that the
`getProof` loop produces for a leaf position, starting from the stored leaf
hash, reproduces the root value computed by the `makeTree` loop. -/
theorem proofGo_replay (p2 : Nat → Nat → Nat) (l : List Nat) (i v : Nat)
    (hv : l.get? i = some v) :
    replay p2 (proofGo ((levelsUp p2 l).dropLast) i) v = rootVal p2 l := by
  have hi : i < l.length := by
    by_contra hc
    rw [List.get?_eq_none.mpr (by omega)] at hv
    exact Option.noConfusion hv
  by_cases h1 : l.length ≤ 1
  · rw [levelsUp_eq, if_pos h1]
    have hi0 : i = 0 := by omega
    subst hi0
    rw [rootVal_small p2 l h1]
    cases l with
    | nil => simp at hi
    | cons a t => simp_all [proofGo, replay]
  · have h2 : 2 ≤ l.length := by omega
    rw [levelsUp_eq, if_neg h1,
      List.dropLast_cons_of_ne_nil (levelsUp_ne_nil p2 (calculateNextLevel p2 l)),
      rootVal_step p2 l h2]
    by_cases hpromo : i = l.length - 1 ∧ l.length % 2 = 1
    · -- promoted unpaired end node: no path element is emitted and the value
      -- is carried up unchanged
      rw [proofGo, if_pos hpromo]
      have hvnl : (calculateNextLevel p2 l).get? (i / 2) = some v := by
        rw [calculateNextLevel_get p2 l (i / 2)]
        have h2i : 2 * (i / 2) = i := by omega
        rw [h2i, hv]
        have h2i1 : l.get? (i + 1) = none := List.get?_eq_none.mpr (by omega)
        rw [h2i1]
      exact proofGo_replay p2 (calculateNextLevel p2 l) (i / 2) v hvnl
    · by_cases heven : i % 2 = 0
      · -- left child: sibling on the right, direction Field(0)
        obtain ⟨w, hw⟩ : ∃ w, l.get? (i + 1) = some w := by
          cases hlw : l.get? (i + 1) with
          | none => rw [List.get?_eq_none] at hlw; omega
          | some w => exact ⟨w, rfl⟩
        have hvnl : (calculateNextLevel p2 l).get? (i / 2) = some (p2 v w) := by
          rw [calculateNextLevel_get p2 l (i / 2)]
          have h2i : 2 * (i / 2) = i := by omega
          rw [h2i, hv, hw]
        rw [proofGo, if_neg hpromo, if_pos heven, hw]
        simp only [replay, List.foldl_cons]
        have hstep : replayStep p2 v { direction := 0, hash := (some w).getD 0 } = p2 v w := by
          simp [replayStep]
        rw [hstep]
        exact proofGo_replay p2 (calculateNextLevel p2 l) (i / 2) (p2 v w) hvnl
      · -- right child: sibling on the left, direction Field(1)
        obtain ⟨w, hw⟩ : ∃ w, l.get? (i - 1) = some w := by
          cases hlw : l.get? (i - 1) with
          | none => rw [List.get?_eq_none] at hlw; omega
          | some w => exact ⟨w, rfl⟩
        have hvnl : (calculateNextLevel p2 l).get? (i / 2) = some (p2 w v) := by
          rw [calculateNextLevel_get p2 l (i / 2)]
          have h2i : 2 * (i / 2) = i - 1 := by omega
          rw [h2i, hw]
          have h2i1 : i - 1 + 1 = i := by omega
          rw [h2i1, hv]
        rw [proofGo, if_neg hpromo, if_neg heven, hw]
        simp only [replay, List.foldl_cons]
        have hstep : replayStep p2 v { direction := 1, hash := (some w).getD 0 } = p2 w v := by
          simp [replayStep]
        rw [hstep]
        exact proofGo_replay p2 (calculateNextLevel p2 l) (i / 2) (p2 w v) hvnl
termination_by l.length
decreasing_by
  all_goals
    have := calculateNextLevel_length p2 l
    omega

end MerkleTree

namespace MerkleTree

/-- `getProof` on a freshly built nonempty tree with an in-range index runs
the walk `proofGo` over the non-root rows, leaf row first. -/
theorem getProof_makeTree (p2 : Nat → Nat → Nat) (l : List Nat) (hl : l ≠ [])
    (i : Nat) (hi : i < l.length) :
    getProof (makeTree p2 l) (i : Int) = .ok (proofGo ((levelsUp p2 l).dropLast) i) := by
  have h0 : ¬ ((i : Int) < 0) := by omega
  have h1 : ¬ ((l.length : Int) - 1 < (i : Int)) := by omega
  unfold getProof
  simp only [h0, if_false, makeTree_getLast p2 l hl, h1, Int.toNat_natCast,
    makeTree_drop_reverse p2 l hl]

theorem levelsUp_chain (p2 : Nat → Nat → Nat) (l : List Nat) :
    ∀ (j : Nat) (a b : List Nat), (levelsUp p2 l).get? j = some a →
      (levelsUp p2 l).get? (j + 1) = some b → b = calculateNextLevel p2 a := by
  by_cases h1 : l.length ≤ 1
  · intro j a b ha hb
    rw [levelsUp_eq, if_pos h1] at hb
    rw [List.get?_eq_none.mpr (by simp)] at hb
    exact Option.noConfusion hb
  · intro j a b ha hb
    rw [levelsUp_eq, if_neg h1] at ha hb
    cases j with
    | zero =>
      simp only [List.get?_cons_zero, Option.some.injEq] at ha
      simp only [List.get?_cons_succ] at hb
      obtain ⟨c, t, hct⟩ :=
        List.exists_cons_of_ne_nil (levelsUp_ne_nil p2 (calculateNextLevel p2 l))
      have hh := levelsUp_head p2 (calculateNextLevel p2 l)
      rw [hct] at hb hh
      simp only [List.get?_cons_zero, Option.some.injEq] at hb
      simp only [List.head?_cons, Option.some.injEq] at hh
      rw [← hb, hh, ha]
    | succ j =>
      simp only [List.get?_cons_succ] at ha hb
      exact levelsUp_chain p2 (calculateNextLevel p2 l) j a b ha hb
termination_by l.length
decreasing_by
  have := calculateNextLevel_length p2 l
  omega

/-- Adjacent levels of a built tree (root level first) are related by one
application of `calculateNextLevel`. -/
theorem makeTree_adj (p2 : Nat → Nat → Nat) (l : List Nat) (hl : l ≠ [])
    (k : Nat) (lk lk1 : List Nat)
    (h : (makeTree p2 l).get? k = some lk)
    (h1 : (makeTree p2 l).get? (k + 1) = some lk1) :
    lk = calculateNextLevel p2 lk1 := by
  rw [makeTree_eq p2 l hl] at h h1
  have hk1 : k + 1 < (levelsUp p2 l).reverse.length := by
    by_contra hc
    rw [List.get?_eq_none.mpr (by omega)] at h1
    exact Option.noConfusion h1
  rw [List.length_reverse] at hk1
  rw [List.get?_eq_getElem?] at h h1
  rw [List.getElem?_reverse (by omega)] at h
  rw [List.getElem?_reverse (by omega)] at h1
  rw [← List.get?_eq_getElem?] at h h1
  have hj1 : (levelsUp p2 l).length - 1 - k = ((levelsUp p2 l).length - 1 - (k + 1)) + 1 := by
    omega
  rw [hj1] at h
  exact levelsUp_chain p2 l ((levelsUp p2 l).length - 1 - (k + 1)) lk1 lk h1 h

theorem proofGo_length_promo : ∀ (rows : List (List Nat)) (i : Nat),
    (proofGo rows i).length + promoCount rows i = rows.length
  | [], _ => by simp [proofGo, promoCount]
  | lvl :: rest, i => by
    have ih := proofGo_length_promo rest (i / 2)
    by_cases hp : i = lvl.length - 1 ∧ lvl.length % 2 = 1
    · simp only [proofGo, promoCount, if_pos hp, List.length_cons]
      omega
    · by_cases he : i % 2 = 0
      · simp only [proofGo, promoCount, if_neg hp, if_pos he, List.length_cons]
        omega
      · simp only [proofGo, promoCount, if_neg hp, if_neg he, List.length_cons]
        omega

/-- The number of levels the `makeTree` loop produces is `ceil(log2 n) + 1`. -/
theorem levelsUp_length_clog (p2 : Nat → Nat → Nat) (l : List Nat) (hl : l ≠ []) :
    (levelsUp p2 l).length = Nat.clog 2 l.length + 1 := by
  by_cases h1 : l.length ≤ 1
  · have hlen : l.length = 1 := by
      have := List.length_pos.mpr hl
      omega
    rw [levelsUp_eq, if_pos h1, hlen]
    simp [Nat.clog_one_right]
  · have h2 : 2 ≤ l.length := by omega
    rw [levelsUp_eq, if_neg h1]
    have ih := levelsUp_length_clog p2 (calculateNextLevel p2 l)
      (calculateNextLevel_ne_nil p2 l hl)
    have hcl : Nat.clog 2 l.length = Nat.clog 2 ((l.length + 1) / 2) + 1 := by
      rw [Nat.clog_of_two_le (by norm_num) h2]
      have harg : l.length + 2 - 1 = l.length + 1 := by omega
      rw [harg]
    simp only [List.length_cons, ih, calculateNextLevel_length p2 l, hcl]
termination_by l.length
decreasing_by
  have := calculateNextLevel_length p2 l
  omega

end MerkleTree

namespace MerkleTree

theorem getIndexGo_not_mem (element : Nat) :
    ∀ (l : List Nat) (i : Nat) (r : Option Nat), element ∉ l →
      getIndexGo element l i r = r
  | [], _, _, _ => rfl
  | el :: rest, i, r, h => by
    have hel : el ≠ element := fun he => h (by rw [he]; exact List.mem_cons_self ..)
    have hrest : element ∉ rest := fun hm => h (List.mem_cons_of_mem el hm)
    simp only [getIndexGo, if_neg hel]
    exact getIndexGo_not_mem element rest (i + 1) r hrest

theorem getIndexGo_mem (element : Nat) :
    ∀ (l : List Nat) (i : Nat) (r : Option Nat), element ∈ l →
      ∃ k, l.get? k = some element ∧ getIndexGo element l i r = some (i + k) ∧
        ∀ k2, l.get? k2 = some element → k2 ≤ k
  | [], _, _, h => absurd h (List.not_mem_nil element)
  | el :: rest, i, r, h => by
    by_cases hmem : element ∈ rest
    · obtain ⟨k, hk, hgo, hmax⟩ :=
        getIndexGo_mem element rest (i + 1) (if el = element then some i else r) hmem
      refine ⟨k + 1, by simpa using hk, ?_, ?_⟩
      · simp only [getIndexGo]
        rw [hgo]
        congr 1
        omega
      · intro k2 hk2
        cases k2 with
        | zero => omega
        | succ k2 =>
          simp only [List.get?_cons_succ] at hk2
          exact Nat.succ_le_succ (hmax k2 hk2)
    · have hel : el = element := by
        rcases List.mem_cons.mp h with he | hm
        · exact he.symm
        · exact absurd hm hmem
      refine ⟨0, by simp [hel], ?_, ?_⟩
      · simp only [getIndexGo, if_pos hel]
        rw [getIndexGo_not_mem element rest (i + 1) (some i) hmem]
        simp
      · intro k2 hk2
        cases k2 with
        | zero => omega
        | succ k2 =>
          simp only [List.get?_cons_succ] at hk2
          exact absurd (List.get?_mem hk2) hmem

/-! ## Claim theorems -/

/-- Claim C1 (confirmed): for every tree built from a nonempty list of
stored leaf hashes and every valid leaf index, `getProof` succeeds,
`getMerkleRoot` yields a root, and `validateProof` of the produced path
against the stored leaf hash and that root returns `true`. -/
theorem c1_round_trip (p2 : Nat → Nat → Nat) (leaves : List Nat) (hne : leaves ≠ [])
    (i v : Nat) (hv : leaves.get? i = some v) :
    ∃ path root, getProof (makeTree p2 leaves) (i : Int) = .ok path ∧
      getMerkleRoot (makeTree p2 leaves) = some root ∧
      validateProof p2 path v root = true := by
  have hi : i < leaves.length := by
    by_contra hc
    rw [List.get?_eq_none.mpr (by omega)] at hv
    exact Option.noConfusion hv
  refine ⟨_, _, getProof_makeTree p2 leaves hne i hi,
    getMerkleRoot_makeTree p2 leaves hne, ?_⟩
  unfold validateProof
  rw [proofGo_replay p2 leaves i v hv]
  simp

/-- Witness for C1 at the three-leaf tree (its last leaf crosses a
promotion level). -/
theorem c1_round_trip_witness :
    ∃ path root, getProof (makeTree pairHash [1, 2, 3]) ((2 : Nat) : Int) = .ok path ∧
      getMerkleRoot (makeTree pairHash [1, 2, 3]) = some root ∧
      validateProof pairHash path 3 root = true :=
  c1_round_trip pairHash [1, 2, 3] (by decide) 2 3 (by decide)

/-- Claim C3 counterexample: on a two-leaf tree, `getProof 5` returns the
empty path, not an out-of-range failure. -/
theorem c3_counterexample : getProof (makeTree pairHash [1, 2]) 5 = .ok [] := by
  decide

/-- Claim C3 (corrected): for every nonempty tree and every index outside
`[0, leafCount)`, `getProof` returns the empty path `[]` — there is no
explicit `IndexOutOfRange` failure in the code. -/
theorem c3_out_of_range_empty (p2 : Nat → Nat → Nat) (l : List Nat) (hl : l ≠ [])
    (index : Int) (hout : index < 0 ∨ (l.length : Int) ≤ index) :
    getProof (makeTree p2 l) index = .ok [] := by
  unfold getProof
  rcases hout with hneg | hbig
  · rw [if_pos hneg]
  · have h0 : ¬ (index < 0) := by
      have : (0 : Int) ≤ (l.length : Int) := by positivity
      omega
    rw [if_neg h0]
    simp only [makeTree_getLast p2 l hl]
    rw [if_pos (by omega)]

/-- Witness for the corrected C3. -/
theorem c3_out_of_range_empty_witness :
    getProof (makeTree pairHash [4, 5, 6]) 3 = .ok [] :=
  c3_out_of_range_empty pairHash [4, 5, 6] (by decide) 3 (by decide)

/-- Claim C4 (confirmed): in a built tree the top level is a singleton, and
every level is obtained from the one below by hashing complete pairs and
promoting an odd trailing node unchanged; consequently each level has
`ceil(len(child)/2)` entries. -/
theorem c4_level_structure (p2 : Nat → Nat → Nat) (l : List Nat) (hl : l ≠ []) :
    (∃ r, (makeTree p2 l).head? = some [r]) ∧
    ∀ k lk lk1, (makeTree p2 l).get? k = some lk →
      (makeTree p2 l).get? (k + 1) = some lk1 →
      lk.length = (lk1.length + 1) / 2 ∧
      ∀ i a, lk1.get? (2 * i) = some a →
        (∀ b, lk1.get? (2 * i + 1) = some b → lk.get? i = some (p2 a b)) ∧
        (lk1.get? (2 * i + 1) = none → lk.get? i = some a) := by
  constructor
  · exact ⟨rootVal p2 l, by
      rw [makeTree_eq p2 l hl, List.head?_reverse, levelsUp_getLast p2 l hl]⟩
  · intro k lk lk1 h h1
    have hadj := makeTree_adj p2 l hl k lk lk1 h h1
    subst hadj
    refine ⟨calculateNextLevel_length p2 lk1, ?_⟩
    intro i a ha
    constructor
    · intro b hb
      rw [calculateNextLevel_get p2 lk1 i, ha, hb]
    · intro hb
      rw [calculateNextLevel_get p2 lk1 i, ha, hb]

/-- Witness for C4 at the three-leaf tree. -/
theorem c4_level_structure_witness :
    (∃ r, (makeTree pairHash [1, 2, 3]).head? = some [r]) ∧
    ∀ k lk lk1, (makeTree pairHash [1, 2, 3]).get? k = some lk →
      (makeTree pairHash [1, 2, 3]).get? (k + 1) = some lk1 →
      lk.length = (lk1.length + 1) / 2 ∧
      ∀ i a, lk1.get? (2 * i) = some a →
        (∀ b, lk1.get? (2 * i + 1) = some b → lk.get? i = some (pairHash a b)) ∧
        (lk1.get? (2 * i + 1) = none → lk.get? i = some a) :=
  c4_level_structure pairHash [1, 2, 3] (by decide)

/-- Claim C5 (confirmed): the path `getProof` returns has length at most
`ceil(log2 n)`; more precisely its length plus the number of promotion skips
on the walked rows equals the number of levels minus one (the tree height),
which itself equals `ceil(log2 n)`. -/
theorem c5_proof_length (p2 : Nat → Nat → Nat) (l : List Nat) (hl : l ≠ [])
    (i : Nat) (hi : i < l.length) :
    ∃ path, getProof (makeTree p2 l) (i : Int) = .ok path ∧
      path.length ≤ Nat.clog 2 l.length ∧
      path.length + promoCount (((makeTree p2 l).drop 1).reverse) i
        = (makeTree p2 l).length - 1 ∧
      (makeTree p2 l).length - 1 = Nat.clog 2 l.length := by
  have hsum := proofGo_length_promo ((levelsUp p2 l).dropLast) i
  have hdrop : (levelsUp p2 l).dropLast.length = (levelsUp p2 l).length - 1 :=
    List.length_dropLast _
  have hclog := levelsUp_length_clog p2 l hl
  have hmt : (makeTree p2 l).length = (levelsUp p2 l).length := by
    rw [makeTree_eq p2 l hl, List.length_reverse]
  have hpc : ((makeTree p2 l).drop 1).reverse = (levelsUp p2 l).dropLast :=
    makeTree_drop_reverse p2 l hl
  exact ⟨_, getProof_makeTree p2 l hl i hi, by omega, by rw [hpc]; omega, by omega⟩

/-- Witness for C5 at the three-leaf tree and its promoted leaf. -/
theorem c5_proof_length_witness :
    ∃ path, getProof (makeTree pairHash [1, 2, 3]) ((2 : Nat) : Int) = .ok path ∧
      path.length ≤ Nat.clog 2 ([1, 2, 3] : List Nat).length ∧
      path.length + promoCount (((makeTree pairHash [1, 2, 3]).drop 1).reverse) 2
        = (makeTree pairHash [1, 2, 3]).length - 1 ∧
      (makeTree pairHash [1, 2, 3]).length - 1 = Nat.clog 2 ([1, 2, 3] : List Nat).length :=
  c5_proof_length pairHash [1, 2, 3] (by decide) 2 (by decide)

/-- Claim C7 counterexample: on a tree with zero leaves, `getProof (-1)`
returns the empty path (no failure of any kind), and `getProof 0` throws the
generic JavaScript `TypeError` of the `levels[-1].length` access — neither is
an explicit empty-tree error. -/
theorem c7_counterexample :
    getProof (makeTree pairHash []) (-1) = .ok [] ∧
    getProof (makeTree pairHash []) 0 = .typeError := by
  decide

/-- Claim C7 (corrected): on a tree with zero leaves, `getProof` throws the
generic `TypeError` for every index `≥ 0`, and returns the empty path for
every negative index; no explicit `EmptyTreeError` exists in the code. -/
theorem c7_empty_tree (p2 : Nat → Nat → Nat) (index : Int) :
    (0 ≤ index → getProof (makeTree p2 []) index = .typeError) ∧
    (index < 0 → getProof (makeTree p2 []) index = .ok []) := by
  have hmt : makeTree p2 [] = [] := rfl
  rw [hmt]
  constructor
  · intro h
    unfold getProof
    rw [if_neg (by omega)]
    rfl
  · intro h
    unfold getProof
    rw [if_pos h]

/-- Witness for the corrected C7. -/
theorem c7_empty_tree_witness : getProof (makeTree pairHash []) 2 = .typeError :=
  (c7_empty_tree pairHash 2).1 (by decide)

/-- Claim C9 (confirmed): a path element whose direction is neither
`Field(0)` nor `Field(1)` leaves the `validateProof` accumulator unchanged,
so inserting (or appending) such a sentinel element anywhere in a path does
not change the verification result — paths may be padded to a fixed length. -/
theorem c9_sentinel_padding (p2 : Nat → Nat → Nat) (e : PathElem)
    (h0 : e.direction ≠ 0) (h1 : e.direction ≠ 1) (pre post : MerklePath)
    (leafHash merkleRoot : Nat) :
    validateProof p2 (pre ++ e :: post) leafHash merkleRoot
      = validateProof p2 (pre ++ post) leafHash merkleRoot := by
  have hid : ∀ x, replayStep p2 x e = x := by
    intro x
    simp [replayStep, h0, h1]
  unfold validateProof replay
  rw [List.foldl_append, List.foldl_append, List.foldl_cons, hid]

/-- Witness for C9 with a `Field(2)` sentinel. -/
theorem c9_sentinel_padding_witness :
    validateProof pairHash ([⟨0, 5⟩] ++ ⟨2, 77⟩ :: [⟨1, 6⟩]) 4 9
      = validateProof pairHash ([⟨0, 5⟩] ++ [⟨1, 6⟩]) 4 9 :=
  c9_sentinel_padding pairHash ⟨2, 77⟩ (by decide) (by decide) [⟨0, 5⟩] [⟨1, 6⟩] 4 9

/-- Claim C10 (confirmed): `getIndex` returns `undefined` when no stored
leaf equals the element; when at least one leaf matches it returns an index
of a matching leaf that is largest among all matching positions (the
`forEach` scan does not stop at the first match). -/
theorem c10_getIndex (leaves : List Nat) (element : Nat) :
    (element ∉ leaves → getIndex leaves element = none) ∧
    (element ∈ leaves → ∃ j, getIndex leaves element = some j ∧
      leaves.get? j = some element ∧
      ∀ k, leaves.get? k = some element → k ≤ j) := by
  constructor
  · intro h
    exact getIndexGo_not_mem element leaves 0 none h
  · intro h
    obtain ⟨k, hk, hgo, hmax⟩ := getIndexGo_mem element leaves 0 none h
    exact ⟨k, by simpa using hgo, hk, hmax⟩

/-- Witness for C10 on a list with a duplicated element: the returned index
is the last occurrence. -/
theorem c10_getIndex_witness :
    ∃ j, getIndex [5, 7, 5] 5 = some j ∧
      ([5, 7, 5] : List Nat).get? j = some 5 ∧
      ∀ k, ([5, 7, 5] : List Nat).get? k = some 5 → k ≤ j :=
  (c10_getIndex [5, 7, 5] 5).2 (by decide)

end MerkleTree

namespace MerkleTree

/-! ## Lemmas about the JavaScript-array update model -/

theorem set_get?_self {α : Type} (l : List α) (i : Nat) (v : α) (h : i < l.length) :
    (l.set i v).get? i = some v := by
  rw [List.get?_eq_getElem?]
  exact List.getElem?_set_eq_of_lt v h

theorem set_get?_ne {α : Type} (l : List α) (i : Nat) (v : α) (j : Nat) (h : i ≠ j) :
    (l.set i v).get? j = l.get? j := by
  rw [List.get?_eq_getElem?, List.get?_eq_getElem?]
  exact List.getElem?_set_ne h

theorem get?_map_some (m : List Nat) (k : Nat) :
    (m.map some).get? k = (m.get? k).map some := by
  rw [List.get?_eq_getElem?, List.get?_eq_getElem?, List.getElem?_map]

theorem jsGet_map_some (m : List Nat) (k : Nat) : jsGet (m.map some) k = m.get? k := by
  unfold jsGet
  rw [get?_map_some]
  cases m.get? k <;> rfl

theorem jsSet_lt (l : List (Option Nat)) (i : Nat) (v : Nat) (h : i < l.length) :
    jsSet l i v = l.set i (some v) := by
  unfold jsSet
  rw [if_pos h]

theorem jsSet_map_some (m : List Nat) (i : Nat) (v : Nat) (h : i < m.length) :
    jsSet (m.map some) i v = (m.set i v).map some := by
  rw [jsSet_lt _ _ _ (by simpa using h), List.map_set]

theorem jsSet_append (l : List (Option Nat)) (v : Nat) :
    jsSet l l.length v = l ++ [some v] := by
  unfold jsSet
  rw [if_neg (by omega)]
  simp

theorem levelsUp_cons_tail (p2 : Nat → Nat → Nat) (m : List Nat) :
    levelsUp p2 m = m :: (levelsUp p2 m).tail := by
  obtain ⟨c, t, hct⟩ := List.exists_cons_of_ne_nil (levelsUp_ne_nil p2 m)
  have hh := levelsUp_head p2 m
  rw [hct] at hh ⊢
  simp only [List.head?_cons, Option.some.injEq] at hh
  rw [hh]
  rfl

theorem upChain_nil (p2 : Nat → Nat → Nat) (l : List Nat) (h1 : l.length ≤ 1) :
    upChain p2 l = [] := by
  unfold upChain
  rw [levelsUp_eq, if_pos h1]
  rfl

theorem upChain_cons (p2 : Nat → Nat → Nat) (l : List Nat) (h2 : 2 ≤ l.length) :
    upChain p2 l
      = calculateNextLevel p2 l :: upChain p2 (calculateNextLevel p2 l) := by
  unfold upChain
  rw [levelsUp_eq, if_neg (by omega)]
  simp only [List.tail_cons]
  exact levelsUp_cons_tail p2 (calculateNextLevel p2 l)

theorem levelsUp_eq_cons_upChain (p2 : Nat → Nat → Nat) (l : List Nat) :
    levelsUp p2 l = l :: upChain p2 l := by
  unfold upChain
  exact levelsUp_cons_tail p2 l

/-- Replacing one entry of a level changes the next level only at the
parent position of that entry. -/
theorem calculateNextLevel_agree (p2 : Nat → Nat → Nat) (old nw : List Nat) (j : Nat)
    (hag : ∀ t, t ≠ j → old.get? t = nw.get? t) :
    ∀ t, t ≠ j / 2 →
      (calculateNextLevel p2 old).get? t = (calculateNextLevel p2 nw).get? t := by
  intro t ht
  rw [calculateNextLevel_get p2 old t, calculateNextLevel_get p2 nw t]
  have e1 : old.get? (2 * t) = nw.get? (2 * t) := hag _ (by omega)
  have e2 : old.get? (2 * t + 1) = nw.get? (2 * t + 1) := hag _ (by omega)
  rw [e1, e2]

end MerkleTree

namespace MerkleTree

/-- The ancestor-recomputation walk of `update`, run over the levels above
the leaf row of a power-of-two tree, rewrites exactly those rows into the
rows that a full rebuild from the updated leaf row would produce, and
completes without hitting an `undefined` child. -/
theorem updGo_rebuild (p2 : Nat → Nat → Nat) (s : Nat) :
    ∀ (old nw : List Nat) (j : Nat),
      old.length = 2 ^ s → nw.length = 2 ^ s → j < 2 ^ s →
      (∀ t, t ≠ j → old.get? t = nw.get? t) →
      updGo p2 ((upChain p2 old).map (List.map some)) (j / 2)
          (childPairAt (nw.map some) j)
        = ((upChain p2 nw).map (List.map some), true) := by
  induction s with
  | zero =>
    intro old nw j ho hn hj hag
    have h1o : old.length ≤ 1 := by rw [ho, pow_zero]
    have h1n : nw.length ≤ 1 := by rw [hn, pow_zero]
    rw [upChain_nil p2 old h1o, upChain_nil p2 nw h1n]
    rfl
  | succ s ih =>
    intro old nw j ho hn hj hag
    have hp : 1 ≤ 2 ^ s := Nat.one_le_two_pow
    have hpow : 2 ^ (s + 1) = 2 * 2 ^ s := by rw [pow_succ]; ring
    have h2o : 2 ≤ old.length := by omega
    have h2n : 2 ≤ nw.length := by omega
    have hlo : (calculateNextLevel p2 old).length = 2 ^ s := by
      rw [calculateNextLevel_length p2 old, ho]
      omega
    have hln : (calculateNextLevel p2 nw).length = 2 ^ s := by
      rw [calculateNextLevel_length p2 nw, hn]
      omega
    have hag2 := calculateNextLevel_agree p2 old nw j hag
    have hjhalf : j / 2 < 2 ^ s := by omega
    rw [upChain_cons p2 old h2o, upChain_cons p2 nw h2n]
    by_cases hj2 : j % 2 = 0
    · have hj1 : j + 1 < nw.length := by omega
      obtain ⟨a, ha⟩ : ∃ a, nw.get? j = some a := by
        cases hx : nw.get? j with
        | none => rw [List.get?_eq_none] at hx; omega
        | some a => exact ⟨a, rfl⟩
      obtain ⟨b, hb⟩ : ∃ b, nw.get? (j + 1) = some b := by
        cases hx : nw.get? (j + 1) with
        | none => rw [List.get?_eq_none] at hx; omega
        | some b => exact ⟨b, rfl⟩
      have hch : childPairAt (nw.map some) j = (some a, some b) := by
        unfold childPairAt
        rw [if_pos hj2, jsGet_map_some, jsGet_map_some, ha, hb]
      rw [hch]
      simp only [List.map_cons, updGo]
      have hrow : jsSet ((calculateNextLevel p2 old).map some) (j / 2) (p2 a b)
          = (calculateNextLevel p2 nw).map some := by
        rw [jsSet_map_some _ _ _ (by omega)]
        congr 1
        apply List.ext_get?
        intro t
        by_cases ht : t = j / 2
        · subst ht
          rw [set_get?_self _ _ _ (by omega)]
          rw [calculateNextLevel_get p2 nw (j / 2)]
          have e1 : 2 * (j / 2) = j := by omega
          rw [e1, ha, hb]
        · rw [set_get?_ne _ _ _ _ (fun hh => ht hh.symm)]
          exact hag2 t ht
      rw [hrow]
      rw [ih (calculateNextLevel p2 old) (calculateNextLevel p2 nw) (j / 2)
        hlo hln hjhalf hag2]
    · have hjm : j % 2 = 1 := by omega
      have hj1 : j - 1 < nw.length := by omega
      obtain ⟨a, ha⟩ : ∃ a, nw.get? (j - 1) = some a := by
        cases hx : nw.get? (j - 1) with
        | none => rw [List.get?_eq_none] at hx; omega
        | some a => exact ⟨a, rfl⟩
      obtain ⟨b, hb⟩ : ∃ b, nw.get? j = some b := by
        cases hx : nw.get? j with
        | none => rw [List.get?_eq_none] at hx; omega
        | some b => exact ⟨b, rfl⟩
      have hch : childPairAt (nw.map some) j = (some a, some b) := by
        unfold childPairAt
        rw [if_neg hj2, jsGet_map_some, jsGet_map_some, ha, hb]
      rw [hch]
      simp only [List.map_cons, updGo]
      have hrow : jsSet ((calculateNextLevel p2 old).map some) (j / 2) (p2 a b)
          = (calculateNextLevel p2 nw).map some := by
        rw [jsSet_map_some _ _ _ (by omega)]
        congr 1
        apply List.ext_get?
        intro t
        by_cases ht : t = j / 2
        · subst ht
          rw [set_get?_self _ _ _ (by omega)]
          rw [calculateNextLevel_get p2 nw (j / 2)]
          have e1 : 2 * (j / 2) = j - 1 := by omega
          rw [e1, ha]
          have e2 : j - 1 + 1 = j := by omega
          rw [e2, hb]
        · rw [set_get?_ne _ _ _ _ (fun hh => ht hh.symm)]
          exact hag2 t ht
      rw [hrow]
      rw [ih (calculateNextLevel p2 old) (calculateNextLevel p2 nw) (j / 2)
        hlo hln hjhalf hag2]

end MerkleTree

namespace MerkleTree

/-- Incremental-equals-rebuild core: on a tree built from `2 ^ K` stored
leaves, `update` at a valid index produces exactly the tree a full rebuild
on the updated leaf list produces, and reports successful completion. -/
theorem update_eq_rebuild (p1 : Nat → Nat) (p2 : Nat → Nat → Nat) (l : List Nat)
    (K : Nat) (hK : l.length = 2 ^ K) (i : Nat) (hi : i < l.length)
    (h : Nat) (b : Bool) :
    update p1 p2 (buildTree p2 l) h i b
      = (buildTree p2 (l.set i (if b then p1 h else h)), true) := by
  have hl : l ≠ [] := by
    intro hc
    rw [hc] at hK
    have := Nat.one_le_two_pow (n := K)
    simp at hK
    omega
  have hlast : ((makeTree p2 l).map (List.map some)).getLast?
      = some (l.map some) := by
    rw [List.getLast?_map, makeTree_getLast p2 l hl]
    rfl
  have hset : jsSet (l.map some) i (if b then p1 h else h)
      = (l.set i (if b then p1 h else h)).map some := jsSet_map_some _ _ _ hi
  have hrest : ((makeTree p2 l).map (List.map some)).dropLast.reverse
      = (upChain p2 l).map (List.map some) := by
    rw [← List.map_dropLast, ← List.map_reverse]
    congr 1
    rw [makeTree_eq p2 l hl, ← reverse_tail_eq_dropLast_reverse, List.reverse_reverse]
    rfl
  have hagree : ∀ t, t ≠ i →
      l.get? t = (l.set i (if b then p1 h else h)).get? t := by
    intro t ht
    rw [set_get?_ne _ _ _ _ (fun hh => ht hh.symm)]
  have hlen2 : (l.set i (if b then p1 h else h)).length = 2 ^ K := by
    simp [hK]
  have hgo := updGo_rebuild p2 K l (l.set i (if b then p1 h else h)) i hK hlen2
    (by omega) hagree
  show update p1 p2
      ⟨l.map some, (makeTree p2 l).map (List.map some)⟩ h i b = _
  unfold update
  simp only [hlast, hrest, hset, hgo]
  have hlv : (l.set i (if b then p1 h else h)).map some
        :: (upChain p2 (l.set i (if b then p1 h else h))).map (List.map some)
      = (levelsUp p2 (l.set i (if b then p1 h else h))).map (List.map some) := by
    rw [levelsUp_eq_cons_upChain p2 (l.set i (if b then p1 h else h))]
    rfl
  simp only [hlv]
  have hl2 : l.set i (if b then p1 h else h) ≠ [] := by
    intro hc
    rw [hc] at hlen2
    have := Nat.one_le_two_pow (n := K)
    simp at hlen2
    omega
  unfold buildTree
  rw [makeTree_eq p2 _ hl2]
  simp [List.map_reverse]

end MerkleTree

namespace MerkleTree

theorem get?_map {α β : Type} (f : α → β) (l : List α) (k : Nat) :
    (l.map f).get? k = (l.get? k).map f := by
  rw [List.get?_eq_getElem?, List.get?_eq_getElem?, List.getElem?_map]

/-- Rebuilding after a single-leaf replacement changes, at every height,
only the entry on the replaced leaf's ancestor chain. -/
theorem levelsUp_frame (p2 : Nat → Nat → Nat) (old nw : List Nat) (j : Nat)
    (hlen : old.length = nw.length)
    (hag : ∀ t, t ≠ j → old.get? t = nw.get? t) :
    ∀ k rowO rowN, (levelsUp p2 old).get? k = some rowO →
      (levelsUp p2 nw).get? k = some rowN →
      ∀ t, t ≠ j / 2 ^ k → rowO.get? t = rowN.get? t := by
  by_cases h1 : old.length ≤ 1
  · intro k rowO rowN hO hN t ht
    rw [levelsUp_eq, if_pos h1] at hO
    rw [levelsUp_eq, if_pos (by omega)] at hN
    cases k with
    | zero =>
      simp only [List.get?_cons_zero, Option.some.injEq] at hO hN
      subst hO
      subst hN
      apply hag
      simpa using ht
    | succ k =>
      rw [List.get?_eq_none.mpr (by simp)] at hO
      exact Option.noConfusion hO
  · intro k rowO rowN hO hN t ht
    rw [levelsUp_eq, if_neg h1] at hO
    rw [levelsUp_eq, if_neg (by omega)] at hN
    cases k with
    | zero =>
      simp only [List.get?_cons_zero, Option.some.injEq] at hO hN
      subst hO
      subst hN
      apply hag
      simpa using ht
    | succ k =>
      simp only [List.get?_cons_succ] at hO hN
      have hdd : j / 2 / 2 ^ k = j / 2 ^ (k + 1) := by
        rw [Nat.div_div_eq_div_mul]
        congr 1
        rw [pow_succ']
      exact levelsUp_frame p2 (calculateNextLevel p2 old)
        (calculateNextLevel p2 nw) (j / 2)
        (by rw [calculateNextLevel_length, calculateNextLevel_length, hlen])
        (calculateNextLevel_agree p2 old nw j hag)
        k rowO rowN hO hN t (by rw [hdd]; exact ht)
termination_by old.length
decreasing_by
  have := calculateNextLevel_length p2 old
  omega

end MerkleTree

namespace MerkleTree

/-- Claim C2 counterexample: a three-leaf tree (size 3 is within the claim's
range 1..17 and is reachable through `appendLeaves`, whose guard only checks
the appended batch) updated at index 2 throws — the promoted leaf has no
sibling, so the updater hashes an `undefined` child — and the resulting state
is not the rebuilt tree. -/
theorem c2_counterexample :
    (update oneHash pairHash (buildTree pairHash [1, 2, 3]) 9 2 false).2 = false ∧
    (update oneHash pairHash (buildTree pairHash [1, 2, 3]) 9 2 false).1
      ≠ buildTree pairHash ([1, 2, 3].set 2 9) := by
  decide

/-- Claim C2 (corrected to the power-of-two trees the variant's constructor
admits): on a tree built from `2 ^ K` stored leaves, `update` at a valid
index yields exactly the `BinaryTree` produced by rebuilding from scratch
with that one leaf replaced, and completes successfully. -/
theorem c2_update_eq_rebuild (p1 : Nat → Nat) (p2 : Nat → Nat → Nat)
    (l : List Nat) (K : Nat) (hK : l.length = 2 ^ K) (i : Nat)
    (hi : i < l.length) (h : Nat) (b : Bool) :
    update p1 p2 (buildTree p2 l) h i b
      = (buildTree p2 (l.set i (if b then p1 h else h)), true) :=
  update_eq_rebuild p1 p2 l K hK i hi h b

/-- Witness for the corrected C2 on a four-leaf tree with leaf hashing on. -/
theorem c2_update_eq_rebuild_witness :
    update oneHash pairHash (buildTree pairHash [1, 2, 3, 4]) 9 1 true
      = (buildTree pairHash [1, oneHash 9, 3, 4], true) :=
  c2_update_eq_rebuild oneHash pairHash [1, 2, 3, 4] 2 (by decide) 1 (by decide) 9 true

/-- Claim C6 counterexample: `update` with the out-of-range index 2 on a
two-leaf tree does not fail with an `IndexOutOfRange` error and does not
leave the tree unchanged — it mutates the leaf row before throwing. -/
theorem c6_counterexample :
    (update oneHash pairHash (buildTree pairHash [1, 2]) 9 2 false).1
      ≠ buildTree pairHash [1, 2] := by
  decide

/-- Claim C6 (corrected): `update` has no bounds check.  Called with
`index = leafCount` on a tree of `2 ^ K ≥ 2` leaves it appends the digest
past the end of the leaf row, then throws while hashing the `undefined`
sibling of the appended entry, leaving the tree mutated: the leaf arrays are
extended and the level matrix is left in reversed (leaf-level-first) order
because the final un-reverse never runs. -/
theorem c6_update_out_of_range (p1 : Nat → Nat) (p2 : Nat → Nat → Nat)
    (l : List Nat) (K : Nat) (hK : l.length = 2 ^ K) (hK1 : 1 ≤ K)
    (h : Nat) (b : Bool) :
    update p1 p2 (buildTree p2 l) h l.length b
      = (⟨l.map some ++ [some (if b then p1 h else h)],
          (l.map some ++ [some (if b then p1 h else h)])
            :: (upChain p2 l).map (List.map some)⟩,
         false) := by
  have hplow : 1 ≤ 2 ^ (K - 1) := Nat.one_le_two_pow
  have hpw : 2 ^ K = 2 * 2 ^ (K - 1) := by
    rw [← pow_succ']
    congr 1
    omega
  have h2 : 2 ≤ l.length := by omega
  have heven : l.length % 2 = 0 := by omega
  have hl : l ≠ [] := by
    intro hc
    rw [hc] at h2
    simp at h2
  have hlast : ((makeTree p2 l).map (List.map some)).getLast?
      = some (l.map some) := by
    rw [List.getLast?_map, makeTree_getLast p2 l hl]
    rfl
  have hrest : ((makeTree p2 l).map (List.map some)).dropLast.reverse
      = (upChain p2 l).map (List.map some) := by
    rw [← List.map_dropLast, ← List.map_reverse]
    congr 1
    rw [makeTree_eq p2 l hl, ← reverse_tail_eq_dropLast_reverse, List.reverse_reverse]
    rfl
  have hsetapp : jsSet (l.map some) l.length (if b then p1 h else h)
      = l.map some ++ [some (if b then p1 h else h)] := by
    have hlm : l.length = (l.map some).length := by simp
    rw [hlm, jsSet_append]
  have g1 : jsGet (l.map some ++ [some (if b then p1 h else h)]) l.length
      = some (if b then p1 h else h) := by
    unfold jsGet
    have hlm : l.length = (l.map some).length := by simp
    rw [hlm]
    simp
  have g2 : jsGet (l.map some ++ [some (if b then p1 h else h)]) (l.length + 1)
      = none := by
    unfold jsGet
    rw [List.get?_eq_none.mpr (by simp)]
    rfl
  have hch : childPairAt (l.map some ++ [some (if b then p1 h else h)]) l.length
      = (some (if b then p1 h else h), none) := by
    unfold childPairAt
    rw [if_pos heven, g1, g2]
  obtain ⟨x, xs, hxxs⟩ : ∃ x xs,
      (upChain p2 l).map (List.map some) = x :: xs := by
    rw [upChain_cons p2 l h2]
    exact ⟨_, _, rfl⟩
  show update p1 p2 ⟨l.map some, (makeTree p2 l).map (List.map some)⟩ h l.length b = _
  unfold update
  simp only [hlast, hrest, hsetapp, hch, hxxs]
  rfl

/-- Witness for the corrected C6 on a two-leaf tree. -/
theorem c6_update_out_of_range_witness :
    update oneHash pairHash (buildTree pairHash [1, 2]) 9 2 false
      = (⟨[1, 2].map some ++ [some 9],
          ([1, 2].map some ++ [some 9])
            :: (upChain pairHash [1, 2]).map (List.map some)⟩,
         false) :=
  c6_update_out_of_range oneHash pairHash [1, 2] 1 (by decide) (by decide) 9 false

end MerkleTree

namespace MerkleTree

/-- Claim C8 counterexample: on the reachable three-leaf tree, updating leaf
2 fails midway and leaves the level matrix reversed; the entry at level 2,
position 0 (the leaf `1`, not on leaf 2's ancestor chain, whose ancestor
entry at that level is position 2) is changed by the call. -/
theorem c8_counterexample :
    ((update oneHash pairHash (buildTree pairHash [1, 2, 3]) 9 2 false).1.levels.get? 2).bind
        (fun row => row.get? 0)
      ≠ ((buildTree pairHash [1, 2, 3]).levels.get? 2).bind (fun row => row.get? 0) := by
  decide

/-- Claim C8 (corrected to the power-of-two trees the variant's constructor
admits): `update` completes and modifies only the replaced leaf and, at each
level `k` of the matrix (root level first), the single ancestor entry at
index `i / 2 ^ levelsBelow`; every other entry of every level and every
other leaf is unchanged. -/
theorem c8_update_frame (p1 : Nat → Nat) (p2 : Nat → Nat → Nat) (l : List Nat)
    (K : Nat) (hK : l.length = 2 ^ K) (i : Nat) (hi : i < l.length)
    (h : Nat) (b : Bool) :
    (update p1 p2 (buildTree p2 l) h i b).2 = true ∧
    (∀ t, t ≠ i →
      jsGet (update p1 p2 (buildTree p2 l) h i b).1.leaves t
        = jsGet (buildTree p2 l).leaves t) ∧
    (∀ k rowO rowN t,
      (buildTree p2 l).levels.get? k = some rowO →
      (update p1 p2 (buildTree p2 l) h i b).1.levels.get? k = some rowN →
      t ≠ i / 2 ^ ((buildTree p2 l).levels.length - 1 - k) →
      rowN.get? t = rowO.get? t) := by
  have hl : l ≠ [] := by
    intro hc
    rw [hc] at hi
    simp at hi
  have hcore := update_eq_rebuild p1 p2 l K hK i hi h b
  rw [hcore]
  refine ⟨rfl, ?_, ?_⟩
  · intro t ht
    show jsGet ((l.set i (if b then p1 h else h)).map some) t = jsGet (l.map some) t
    rw [jsGet_map_some, jsGet_map_some]
    exact set_get?_ne l i _ t (fun hh => ht hh.symm)
  · intro k rowO rowN t hO hN ht
    rw [show (buildTree p2 l).levels = (makeTree p2 l).map (List.map some) from rfl]
      at hO ht
    rw [show (buildTree p2 (l.set i (if b then p1 h else h)), true).1.levels
        = (makeTree p2 (l.set i (if b then p1 h else h))).map (List.map some) from rfl]
      at hN
    rw [get?_map] at hO hN
    obtain ⟨ro, hro, hro2⟩ := Option.map_eq_some'.mp hO
    obtain ⟨rn, hrn, hrn2⟩ := Option.map_eq_some'.mp hN
    subst hro2
    subst hrn2
    rw [get?_map, get?_map]
    have hnwlen : (l.set i (if b then p1 h else h)).length = l.length := by simp
    have hlp := List.length_pos.mpr hl
    have hnwne : l.set i (if b then p1 h else h) ≠ [] := by
      intro hc
      have hzero : (l.set i (if b then p1 h else h)).length = 0 := by rw [hc]; rfl
      omega
    have hml := makeTree_eq p2 l hl
    have hmn := makeTree_eq p2 _ hnwne
    rw [hml] at hro ht
    rw [hmn] at hrn
    have hkb : k < (levelsUp p2 l).length := by
      by_contra hc
      rw [List.get?_eq_none.mpr (by simpa using by omega)] at hro
      exact Option.noConfusion hro
    have hLL : (levelsUp p2 (l.set i (if b then p1 h else h))).length
        = (levelsUp p2 l).length := by
      rw [levelsUp_length_clog p2 _ hnwne, levelsUp_length_clog p2 l hl, hnwlen]
    rw [List.get?_eq_getElem?, List.getElem?_reverse (by omega),
      ← List.get?_eq_getElem?] at hro
    rw [List.get?_eq_getElem?, List.getElem?_reverse (by omega),
      ← List.get?_eq_getElem?, hLL] at hrn
    have hexp : ((levelsUp p2 l).reverse.map
        (List.map (some : Nat → Option Nat))).length = (levelsUp p2 l).length := by
      simp
    rw [hexp] at ht
    have hframe := levelsUp_frame p2 l (l.set i (if b then p1 h else h)) i
      hnwlen.symm
      (fun t2 ht2 => (set_get?_ne l i _ t2 (fun hh => ht2 hh.symm)).symm)
      ((levelsUp p2 l).length - 1 - k) ro rn hro hrn t ht
    rw [hframe]

/-- Witness for the corrected C8: the update on a two-leaf tree completes. -/
theorem c8_update_frame_witness :
    (update oneHash pairHash (buildTree pairHash [1, 2]) 9 0 false).2 = true :=
  (c8_update_frame oneHash pairHash [1, 2] 1 (by decide) 0 (by decide) 9 false).1

end MerkleTree
